import Mathlib

/-!
Verification of the Home-Decor wall-detection core.

A shallow embedding, in Lean 4, of the algorithmic core of the Home-Decor
backend:

* `backend/app/models/wall_detector.py` — `WallDetector.detect_walls` and
  `WallDetector.apply_color`;
* `backend/app/models/wall_detectorr.py` — the alternate
  `WallDetector.detect_walls` variant;
* `backend/app/services/image_service.py` — `_encode_mask_coordinates`,
  the pickle-file result cache, and `ImageService.__init__`.

Images and masks are total functions on pixel coordinates, with explicit
height/width bounds threaded through every operation.  Calls into the
external libraries (the SAM segmentation model, OpenCV geometry routines,
NumPy statistics) are modelled as oracle inputs: each `Segment` record
carries, besides its mask and metadata, the values the Python code obtains
from `cv2.findContours`/`cv2.convexHull`/`cv2.arcLength` and from
`np.std`.  Floating-point arithmetic is modelled exactly over `ℚ`, and the
`astype(np.uint8)` casts as integer truncation.
-/

namespace HomeDecor

/-- An 8-bit RGB pixel (`np.uint8` channels). -/
structure Color where
  red : ℕ
  green : ℕ
  blue : ℕ
deriving DecidableEq

/-- A boolean segmentation mask, as a total function on coordinates
(row, column); only the entries with row < height and column < width are
meaningful. -/
abbrev MaskF := ℕ → ℕ → Bool

/-- An RGB raster image as a total function on (row, column). -/
abbrev ImageF := ℕ → ℕ → Color

/-- The test `np.any(mask)` restricted to the `h × w` frame. -/
def anyTrue (h w : ℕ) (m : MaskF) : Bool :=
  (List.range h).any fun i => (List.range w).any fun j => m i j

/-- The count `len(image[mask])`: the number of true pixels of the mask inside the
`h × w` frame. -/
def pixelCount (h w : ℕ) (m : MaskF) : ℕ :=
  ((List.range h).map fun i => ((List.range w).filter fun j => m i j).length).sum

/-- Mean colors are exact rationals. -/
structure ColorQ where
  red : ℚ
  green : ℚ
  blue : ℚ
deriving DecidableEq

/-- Sum of one channel of the image over the pixels selected by the mask. -/
def maskedChannelSum (h w : ℕ) (img : ImageF) (m : MaskF) (ch : Color → ℕ) : ℕ :=
  ((List.range h).map fun i =>
    ((((List.range w).filter fun j => m i j).map fun j => ch (img i j))).sum).sum

/-- The mean `np.mean(image[mask], axis=0)`: the mean color of the pixels under the
mask (the Python code never uses the value for an empty mask; `(0,0,0)` is
returned in that degenerate case). -/
def avgColorQ (h w : ℕ) (img : ImageF) (m : MaskF) : ColorQ :=
  let n := pixelCount h w m
  if n = 0 then ⟨0, 0, 0⟩
  else
    ⟨(maskedChannelSum h w img m Color.red : ℚ) / n,
     (maskedChannelSum h w img m Color.green : ℚ) / n,
     (maskedChannelSum h w img m Color.blue : ℚ) / n⟩

/-- From `wall_detector.py` lines 98–103: the mask has a true pixel on row 0,
the last row, column 0, or the last column. -/
def touchesBoundary (h w : ℕ) (m : MaskF) : Bool :=
  ((List.range w).any fun j => m 0 j) ||
  ((List.range w).any fun j => m (h - 1) j) ||
  ((List.range h).any fun i => m i 0) ||
  ((List.range h).any fun i => m i (w - 1))

/-- Data computed by OpenCV from the first outer contour of a mask
(`cv2.findContours(...)[0]`): the area of its convex hull
(`cv2.contourArea(cv2.convexHull(c))`) and its arc length
(`cv2.arcLength(c, True)`).  These library calls are external to the
repository, so their results are oracle inputs of the model. -/
structure ContourStats where
  hullArea : ℚ
  arcLen : ℚ
deriving DecidableEq

/-- A region proposal produced by the segmentation oracle, together with
the external-library measurements the detector computes for it:
`contour0 = none` models `cv2.findContours` returning no contours, and
`stdMean` is `np.mean(np.std(image[mask], axis=0))` (the color
homogeneity, a float computed by NumPy). -/
structure Segment where
  segmentation : MaskF
  area : ℕ
  score : ℚ
  contour0 : Option ContourStats
  stdMean : ℚ

/-- Stable insertion of `p` into a list sorted by `key` descending: `p`
goes before the first element of strictly smaller key, after all elements
of greater-or-equal key encountered so far. -/
def insertDescBy {α : Type} (key : α → ℕ) (p : α) : List α → List α
  | [] => [p]
  | q :: rest => if key q ≤ key p then p :: q :: rest else q :: insertDescBy key p rest

/-- Python's `sorted(l, key=key, reverse=True)`: Python's sort is stable, and a
stable descending sort is uniquely determined by the key order and
stability, so this structurally recursive insertion sort computes exactly
the list Python produces. -/
def sortDescBy {α : Type} (key : α → ℕ) (l : List α) : List α :=
  l.foldr (insertDescBy key) []

/-- From `wall_detector.py` lines 106–115: solidity of a segment, `area /
hull_area` when the mask has a contour with positive hull area, `0`
otherwise. -/
def solidityOf (s : Segment) : ℚ :=
  match s.contour0 with
  | some c => if 0 < c.hullArea then (s.area : ℚ) / c.hullArea else 0
  | none => 0

/-- From `wall_detector.py` lines 111–115: `perimeter / area`, with
`float('inf')` — modelled as `none` — when there is no contour or the
area is zero. -/
def perimOverArea (s : Segment) : Option ℚ :=
  match s.contour0 with
  | some c => if 0 < s.area then some (c.arcLen / (s.area : ℚ)) else none
  | none => none

/-- Comparison of an extended value against a finite threshold:
`float('inf') < t` is false. -/
def extLt (x : Option ℚ) (t : ℚ) : Bool :=
  match x with
  | some q => decide (q < t)
  | none => false

/-- From `wall_detector.py` lines 121–127: the primary-pass acceptance
predicate `is_wall`. -/
def isWall (h w : ℕ) (s : Segment) : Bool :=
  touchesBoundary h w s.segmentation &&
  decide ((0.75 : ℚ) < solidityOf s) &&
  decide (s.stdMean < 30) &&
  extLt (perimOverArea s) 0.1 &&
  decide ((0.05 : ℚ) < (s.area : ℚ) / ((h : ℚ) * (w : ℚ)))

/-- The running selection state of `detect_walls`: the merged wall mask,
the list of selected segments (`self.selected_segments`, appended in
acceptance order) and the set of accepted indices
(`selected_segment_ids`). -/
structure SelState where
  mask : MaskF
  selected : List Segment
  ids : List ℕ

/-- Pointwise `np.logical_or` of two masks. -/
def maskOr (a b : MaskF) : MaskF := fun i j => a i j || b i j

/-- The all-false mask `np.zeros((h, w))`. -/
def maskZero : MaskF := fun _ _ => false

/-- Accepting a segment: OR its mask into the running mask, append it to
the selected list, record its index. -/
def acceptSegment (st : SelState) (idx : ℕ) (s : Segment) : SelState :=
  { mask := maskOr st.mask s.segmentation
    selected := st.selected ++ [s]
    ids := st.ids ++ [idx] }

/-- One iteration of the primary loop of `detect_walls`
(`wall_detector.py` lines 88–132). -/
def primaryStep (h w : ℕ) (st : SelState) (p : ℕ × Segment) : SelState :=
  if pixelCount h w p.2.segmentation = 0 then st
  else if isWall h w p.2 then acceptSegment st p.1 p.2 else st

/-- The primary pass of `detect_walls`. -/
def primaryPass (h w : ℕ) (sorted : List (ℕ × Segment)) (st : SelState) : SelState :=
  sorted.foldl (primaryStep h w) st

/-- The comparison `np.linalg.norm(a - b) < t` for a non-negative threshold, stated
without square roots: the Euclidean distance is below `t` iff the squared
distance is below `t²`. -/
def colorDistLt (a b : ColorQ) (t : ℚ) : Bool :=
  decide ((a.red - b.red) ^ 2 + (a.green - b.green) ^ 2 + (a.blue - b.blue) ^ 2 < t ^ 2)

/-- One iteration of the color-refinement loop (`wall_detector.py` lines
140–156). -/
def refineStep (h w : ℕ) (img : ImageF) (wallAvg : ColorQ) (st : SelState)
    (p : ℕ × Segment) : SelState :=
  if p.1 ∈ st.ids then st
  else if pixelCount h w p.2.segmentation = 0 then st
  else if colorDistLt (avgColorQ h w img p.2.segmentation) wallAvg 35 && decide (1000 < p.2.area)
  then acceptSegment st p.1 p.2
  else st

/-- The color-refinement pass (`wall_detector.py` lines 134–156): runs
only when something was already selected and the selection has pixels; the
selection's mean color is computed once, before the loop. -/
def refinementPass (h w : ℕ) (img : ImageF) (sorted : List (ℕ × Segment))
    (st : SelState) : SelState :=
  if st.selected.isEmpty then st
  else if pixelCount h w st.mask = 0 then st
  else
    let wallAvg := avgColorQ h w img st.mask
    sorted.foldl (refineStep h w img wallAvg) st

/-- The test `avg_color[1] > avg_color[0] and avg_color[1] > avg_color[2]`
(`wall_detector.py` line 173). -/
def isGreenAvg (c : ColorQ) : Bool :=
  decide (c.red < c.green) && decide (c.blue < c.green)

/-- One iteration of the green-screen fallback loop (`wall_detector.py`
lines 160–178). -/
def fallbackStep (h w : ℕ) (img : ImageF) (st : SelState) (p : ℕ × Segment) : SelState :=
  if p.1 ∈ st.ids then st
  else if pixelCount h w p.2.segmentation = 0 then st
  else if isGreenAvg (avgColorQ h w img p.2.segmentation) &&
          decide ((0.05 : ℚ) * ((h : ℚ) * (w : ℚ)) < (p.2.area : ℚ))
  then acceptSegment st p.1 p.2
  else st

/-- The green-screen fallback pass (`wall_detector.py` lines 158–178):
runs only when the selection covers less than a tenth of the image, and
scans the ten largest proposals. -/
def fallbackPass (h w : ℕ) (img : ImageF) (sorted : List (ℕ × Segment))
    (st : SelState) : SelState :=
  if (pixelCount h w st.mask : ℚ) < 0.1 * ((h : ℚ) * (w : ℚ)) then
    (sorted.take 10).foldl (fallbackStep h w img) st
  else st

/-- Dilation with the 15×15 all-ones kernel, anchored at its center
(`cv2.dilate` semantics; pixels outside the frame do not contribute). -/
def dilate15 (h w : ℕ) (m : MaskF) : MaskF := fun i j =>
  (List.range 15).any fun di => (List.range 15).any fun dj =>
    let a : ℤ := (i : ℤ) + (di : ℤ) - 7
    let b : ℤ := (j : ℤ) + (dj : ℤ) - 7
    decide (0 ≤ a) && decide (a < (h : ℤ)) && decide (0 ≤ b) && decide (b < (w : ℤ)) &&
      m a.toNat b.toNat

/-- Erosion with the 15×15 all-ones kernel (`cv2.erode` semantics with the
default border value, which treats out-of-frame pixels as foreground so
they never constrain the minimum). -/
def erode15 (h w : ℕ) (m : MaskF) : MaskF := fun i j =>
  (List.range 15).all fun di => (List.range 15).all fun dj =>
    let a : ℤ := (i : ℤ) + (di : ℤ) - 7
    let b : ℤ := (j : ℤ) + (dj : ℤ) - 7
    !(decide (0 ≤ a) && decide (a < (h : ℤ)) && decide (0 ≤ b) && decide (b < (w : ℤ))) ||
      m a.toNat b.toNat

/-- Closing `cv2.morphologyEx(mask, cv2.MORPH_CLOSE, np.ones((15, 15)))`
(`wall_detector.py` lines 180–182): dilate, then erode. -/
def close15 (h w : ℕ) (m : MaskF) : MaskF :=
  erode15 h w (dilate15 h w m)

/-- Result of `WallDetector.detect_walls`: the smoothed wall mask
(`self.wall_mask`) and the contributing segments
(`self.selected_segments`). -/
structure DetectResult where
  mask : MaskF
  selected : List Segment

/-- Embedding of `WallDetector.detect_walls` of `wall_detector.py` (lines 60–184):
primary heuristic pass over the proposals in descending-area order, then
color refinement, then the green-screen fallback, then morphological
closing.  The dominant-color statistics of lines 74–83 are computed by the
Python code but never used, so they are omitted. -/
def detectWalls (h w : ℕ) (img : ImageF) (segments : List Segment) : DetectResult :=
  let sortedSegments := sortDescBy (fun p => p.2.area) segments.enum
  let st0 : SelState := ⟨maskZero, [], []⟩
  let st1 := primaryPass h w sortedSegments st0
  let st2 := refinementPass h w img sortedSegments st1
  let st3 := fallbackPass h w img sortedSegments st2
  { mask := close15 h w st3.mask, selected := st3.selected }

/-- The pixel-wise logical OR of the masks of a list of segments. -/
def orMasks (l : List Segment) : MaskF := fun i j =>
  l.any fun s => s.segmentation i j

/-! ## The alternate detector `wall_detectorr.py` -/

/-- The test `np.mean(avg_color) > 150` (`wall_detectorr.py` line 89). -/
def isLightAvg (c : ColorQ) : Bool :=
  decide ((150 : ℚ) < (c.red + c.green + c.blue) / 3)

/-- The acceptance predicate of `wall_detectorr.py` line 92:
boundary-touching, solidity above 0.7, and light mean color.  (For an
empty mask the mean color is degenerate, but such a mask also fails the
boundary test, so the conjunction is unaffected.) -/
def acceptCandidate (h w : ℕ) (img : ImageF) (s : Segment) : Bool :=
  touchesBoundary h w s.segmentation &&
  decide ((0.7 : ℚ) < solidityOf s) &&
  isLightAvg (avgColorQ h w img s.segmentation)

/-- Result of the alternate `detect_walls`: the dict
`{'wall_mask': ..., 'masks': ...}` with the mask stored as 0/255 bytes
(`wall_mask.astype(np.uint8) * 255`, line 102). -/
structure DetectResultR where
  wall_mask : ℕ → ℕ → ℕ
  masks : List Segment

/-- One iteration of the candidate loop of `wall_detectorr.py` lines
66–94: an accepted candidate is appended to the selection and its mask is
ORed in. -/
def candidateStep (h w : ℕ) (img : ImageF) (acc : List Segment × MaskF)
    (s : Segment) : List Segment × MaskF :=
  if acceptCandidate h w img s then (acc.1 ++ [s], maskOr acc.2 s.segmentation) else acc

/-- Lines 96–99 of `wall_detectorr.py`: if no segment was selected and
there is at least one proposal, take the largest proposal outright. -/
def fallbackLargest (sel : List Segment × MaskF) (sorted : List Segment) :
    List Segment × MaskF :=
  match sel.1, sorted with
  | [], s0 :: _ => ([s0], maskOr sel.2 s0.segmentation)
  | _, _ => sel

/-- Line 102 of `wall_detectorr.py`: `wall_mask.astype(np.uint8) * 255`. -/
def toMask255 (m : MaskF) : ℕ → ℕ → ℕ := fun i j => if m i j then 255 else 0

/-- Embedding of `WallDetector.detect_walls` of `wall_detectorr.py` (lines 43–107):
sort by area descending, test the top 30 % of proposals (at least one)
with the boundary/solidity/lightness predicate, and — when nothing was
selected — fall back to the single largest proposal.  `int(len * 0.3)` is
modelled as `3 * len / 10` (floor division). -/
def detectWallsR (h w : ℕ) (img : ImageF) (segments : List Segment) : DetectResultR :=
  let sortedSegments := sortDescBy (fun s => s.area) segments
  let numCandidates := max 1 (3 * sortedSegments.length / 10)
  let candidates := sortedSegments.take numCandidates
  let sel := candidates.foldl (candidateStep h w img) ([], maskZero)
  let sel2 := fallbackLargest sel sortedSegments
  { wall_mask := toMask255 sel2.2
    masks := sel2.1 }

/-! ## `WallDetector.apply_color` (`wall_detector.py` lines 186–222)

The color-space conversions `cv2.cvtColor(..., COLOR_RGB2HSV)` and
`COLOR_HSV2RGB` are external library calls and enter the model as oracle
functions `rgbToHsv` and `hsvToRgb`.  A mask pixel is "selected" when the
stored mask value is 1 (`np.where(self.wall_mask == 1)`). -/

/-- An 8-bit HSV pixel as produced by `cv2.cvtColor(..., COLOR_RGB2HSV)`. -/
structure HSV where
  hue : ℕ
  sat : ℕ
  val : ℕ
deriving DecidableEq

/-- An HSV raster image. -/
abbrev HSVImageF := ℕ → ℕ → HSV

/-- Clipping `np.clip(x, lo, hi)` on exact rationals. -/
def clipQ (x lo hi : ℚ) : ℚ := min hi (max lo x)

/-- The integer part of a non-negative rational: `astype(np.uint8)`
truncation of the clipped float value.  (`Int.fdiv num den` is the floor,
which agrees with C truncation on the non-negative values produced by
`np.clip(..., 0, 255)`.) -/
def qtrunc (q : ℚ) : ℤ := Int.fdiv q.num (q.den : ℤ)

/-- From `wall_detector.py` lines 207–212: the blended value channel
`np.clip(color_v * (1 - 0.7) + orig_v * 0.7, 0, 255).astype(np.uint8)`. -/
def blendValue (colorV origV : ℕ) : ℕ :=
  (qtrunc (clipQ ((colorV : ℚ) * (1 - 0.7) + (origV : ℚ) * 0.7) 0 255)).toNat

/-- From `wall_detector.py` lines 198–214, the recoloring stage in HSV space:
three successive in-place writes over the pixels where the mask is set —
hue := target hue, saturation := target saturation, value := blended
value (reading the value channel after the first two writes, which leave
it unchanged). -/
def applyColorHSV (mask : MaskF) (hsvImg : HSVImageF) (colorHsv : HSV) : HSVImageF :=
  let step1 : HSVImageF := fun i j =>
    if mask i j then { hsvImg i j with hue := colorHsv.hue } else hsvImg i j
  let step2 : HSVImageF := fun i j =>
    if mask i j then { step1 i j with sat := colorHsv.sat } else step1 i j
  fun i j =>
    if mask i j then { step2 i j with val := blendValue colorHsv.val (step2 i j).val }
    else step2 i j

/-- OpenCV's `BORDER_REFLECT_101` index mapping (`gfedcb|abcdefgh|gfedcba`):
an out-of-range index is reflected about the border pixel; the closed form
uses the period `2n - 2` of the reflected pattern.  Degenerate axes
(`n ≤ 1`) map everything to 0. -/
def reflect101 (n : ℕ) (x : ℤ) : ℕ :=
  if n ≤ 1 then 0
  else if (x % (2 * (n : ℤ) - 2)).toNat ≤ n - 1 then (x % (2 * (n : ℤ) - 2)).toNat
  else 2 * n - 2 - (x % (2 * (n : ℤ) - 2)).toNat

/-- Blurring `cv2.GaussianBlur(mask.astype(np.float32), (21, 21), 0)` at one pixel:
a weighted sum of the 0/1 mask over the 21×21 window centred at the pixel,
with `BORDER_REFLECT_101` border handling.  The Gaussian kernel weights
are computed by OpenCV and enter the model as an oracle `wts`. -/
def blurMask21 (wts : ℕ → ℕ → ℚ) (h w : ℕ) (m : MaskF) (i j : ℕ) : ℚ :=
  ((List.range 21).map fun di =>
    ((List.range 21).map fun dj =>
      wts di dj *
        (if m (reflect101 h ((i : ℤ) + (di : ℤ) - 10)) (reflect101 w ((j : ℤ) + (dj : ℤ) - 10))
         then (1 : ℚ) else 0)).sum).sum

/-- One channel of `(alpha * recolored + (1 - alpha) * original)
.astype(np.uint8)` (`wall_detector.py` line 220). -/
def blendChannel (alpha : ℚ) (recolored orig : ℕ) : ℕ :=
  (qtrunc (alpha * (recolored : ℚ) + (1 - alpha) * (orig : ℚ))).toNat % 256

/-- Embedding of `WallDetector.apply_color` (`wall_detector.py` lines 186–222): convert
to HSV, rewrite hue/saturation/value under the mask, convert back, then
alpha-blend against the original image with the Gaussian-blurred mask as
per-pixel alpha. -/
def applyColor (rgbToHsv : Color → HSV) (hsvToRgb : HSV → Color) (wts : ℕ → ℕ → ℚ)
    (h w : ℕ) (img : ImageF) (mask : MaskF) (colorRgb : Color) : ImageF :=
  let hsvImg : HSVImageF := fun i j => rgbToHsv (img i j)
  let colorHsv := rgbToHsv colorRgb
  let recolored : ImageF := fun i j => hsvToRgb (applyColorHSV mask hsvImg colorHsv i j)
  fun i j =>
    let alpha := blurMask21 wts h w mask i j
    { red := blendChannel alpha (recolored i j).red (img i j).red
      green := blendChannel alpha (recolored i j).green (img i j).green
      blue := blendChannel alpha (recolored i j).blue (img i j).blue }

/-! ## `ImageService._encode_mask_coordinates`
(`image_service.py`, lines 150–247 of the HEAD side)

`cv2.findContours(..., RETR_TREE, CHAIN_APPROX_SIMPLE)` and
`cv2.approxPolyDP` are external library calls: the contour list with its
hierarchy enters the model as an oracle value `ContourData`, and polygon
simplification as an oracle function `approxFn : points → ε → points`.
The per-contour `cv2.contourArea` / `cv2.arcLength` values are oracle
fields of each contour. -/

/-- A contour as discovered by `cv2.findContours`, with its
externally-computed area and perimeter. -/
structure Contour where
  points : List (ℤ × ℤ)
  area : ℚ
  perim : ℚ
deriving DecidableEq

/-- One row `[next, previous, first_child, parent]` of the
`cv2.RETR_TREE` hierarchy (−1 meaning "none"). -/
structure HierNode where
  nxt : ℤ
  prev : ℤ
  child : ℤ
  parent : ℤ
deriving DecidableEq

/-- The output of `cv2.findContours` with `RETR_TREE`: parallel lists of
contours and hierarchy rows. -/
structure ContourData where
  contours : List Contour
  hier : List HierNode

/-- How OpenCV's polygon simplification is consulted:
`approxFn pts ε` models `cv2.approxPolyDP(contour, ε, True)`. -/
abbrev ApproxOracle := List (ℤ × ℤ) → ℚ → List (ℤ × ℤ)

/-- A hole sub-path: the index of the child contour it came from and its
emitted vertex sequence. -/
structure HolePath where
  srcIdx : ℕ
  pts : List (ℤ × ℤ)
deriving DecidableEq

/-- A kept outer contour with its emitted vertex sequence and its hole
sub-paths. -/
structure OuterPath where
  srcIdx : ℕ
  pts : List (ℤ × ℤ)
  holes : List HolePath
deriving DecidableEq

/-- The hole emission order (`image_service.py` lines 225–228): start at
`points[0]`, then the remaining vertices in reversed order
(`for point in reversed(points[1:])`) — the reversed cyclic traversal
anchored at the first vertex. -/
def holeEmit (l : List (ℤ × ℤ)) : List (ℤ × ℤ) :=
  match l with
  | [] => []
  | p :: rest => p :: rest.reverse

/-- The `while current != -1` loop over the sibling chain of a kept outer
contour's first child (`image_service.py` lines 212–232).  Fuel bounds the
chain length (OpenCV hierarchies are acyclic, so `contours.length` fuel is
enough); a negative or out-of-range index stops the walk. -/
def processHoles (approxFn : ApproxOracle) (cd : ContourData) :
    ℕ → ℤ → List HolePath
  | 0, _ => []
  | fuel + 1, cur =>
    if cur < 0 then []
    else
      match cd.contours[cur.toNat]?, cd.hier[cur.toNat]? with
      | some c, some hn =>
        if decide (100 < c.area) && decide (20 < c.perim) then
          if 3 ≤ (approxFn c.points (0.002 * c.perim)).length then
            ⟨cur.toNat, holeEmit (approxFn c.points (0.002 * c.perim))⟩ ::
              processHoles approxFn cd fuel hn.nxt
          else processHoles approxFn cd fuel hn.nxt
        else processHoles approxFn cd fuel hn.nxt
      | _, _ => []

/-- The body of the outer loop of `_encode_mask_coordinates` for contour
index `idx` (`image_service.py` lines 181–235): `none` models `continue`. -/
def outerStep (approxFn : ApproxOracle) (cd : ContourData) (idx : ℕ) : Option OuterPath :=
  match cd.contours[idx]?, cd.hier[idx]? with
  | some c, some hn =>
    if hn.parent ≠ -1 then none
    else if c.points.length < 3 then none
    else if c.area < 100 ∨ c.perim < 20 then none
    else if (approxFn c.points (0.002 * c.perim)).length < 3 then none
    else some ⟨idx, approxFn c.points (0.002 * c.perim),
        processHoles approxFn cd cd.contours.length hn.child⟩
  | _, _ => none

/-- Appending the result of one loop body to the accumulated path list
(`paths.append(path)`); a `none` result is a `continue`. -/
def collectStep {β : Type} (f : ℕ → Option β) (acc : List β) (idx : ℕ) : List β :=
  match f idx with
  | some p => acc ++ [p]
  | none => acc

/-- The outer loop `for idx, (contour, h) in enumerate(zip(contours,
hierarchy[0]))`, accumulating the kept paths in order. -/
def encodePaths (approxFn : ApproxOracle) (cd : ContourData) : List OuterPath :=
  (List.range (min cd.contours.length cd.hier.length)).foldl
    (collectStep (outerStep approxFn cd)) []

/-- Rendering of one vertex sequence as SVG path tokens
(`"M x,y L x,y ... Z"`). -/
def renderPts (pts : List (ℤ × ℤ)) : String :=
  match pts with
  | [] => ""
  | p :: rest =>
    "M " ++ toString p.1 ++ "," ++ toString p.2 ++
      (rest.foldl (fun acc q => acc ++ " L " ++ toString q.1 ++ "," ++ toString q.2) "") ++
      " Z"

/-- Rendering of a kept outer contour followed by its holes, as the Python
code appends to one path string. -/
def renderPath (p : OuterPath) : String :=
  renderPts p.pts ++ p.holes.foldl (fun acc hp => acc ++ " " ++ renderPts hp.pts) ""

/-- The three failure exits of `_encode_mask_coordinates`, one per raise
site.  All three are raised as the Python class `ImageProcessingError`;
they are distinguished by their detail message (see
`encodeErrorDetail`). -/
inductive EncodeError where
  | InvalidMask
  | EmptySelection
  | NoValidPath
deriving DecidableEq

/-- The detail message of each raise site: line 156 (`mask is None or
mask.size == 0`), line 176 (no contours), line 239 (no surviving paths). -/
def encodeErrorDetail : EncodeError → String
  | .InvalidMask => "Invalid mask data"
  | .EmptySelection => "No valid wall segments found"
  | .NoValidPath => "Failed to generate wall segments"

/-- How `cv2.findContours` is consulted: an oracle producing the contour
tree of a mask. -/
abbrev FindContoursOracle := ℕ → ℕ → MaskF → ContourData

/-- Embedding of `ImageService._encode_mask_coordinates` (`image_service.py`
lines 150–247): reject a size-zero mask, find contours, walk the hierarchy
keeping filtered outer contours and their direct-child holes, and join the
rendered sub-paths with single spaces. -/
def encodeMaskCoordinates (findFn : FindContoursOracle) (approxFn : ApproxOracle)
    (h w : ℕ) (mask : MaskF) : Except EncodeError String :=
  if h * w = 0 then .error .InvalidMask
  else
    let cd := findFn h w mask
    if cd.contours.isEmpty then .error .EmptySelection
    else
      let paths := encodePaths approxFn cd
      if paths.isEmpty then .error .NoValidPath
      else .ok (String.intercalate (" ") (paths.map renderPath))

/-! ## The result cache and service initialization
(`image_service.py` lines 16–70, 264–270, and `process_upload` /
`apply_wall_color`)

The cache directory holding one pickle file per image identifier is
modelled as a partial map from identifiers to entries; `pickle.dump` /
`pickle.load` round-trip the entry unchanged. -/

/-- The `schemas.WallMask` record as constructed in `process_upload`
(fields `mask_id`, `coordinates`, `area`, `confidence`). -/
structure WallMaskRec where
  mask_id : String
  coordinates : String
  area : ℕ
  confidence : ℚ

/-- The dict pickled per image (`image_service.py` lines 96–100):
`{'image': ..., 'wall_mask': ..., 'walls': ...}`. -/
structure CacheEntry where
  image : ImageF
  wall_mask : ℕ → ℕ → ℕ
  walls : List WallMaskRec

/-- The cache directory: at most one entry (file
`{image_id}_cache.pkl`) per identifier. -/
abbrev CacheStore := String → Option CacheEntry

/-- The empty cache directory. -/
def emptyStore : CacheStore := fun _ => none

/-- Embedding of `_save_to_cache` (`image_service.py` lines 43–54): writes the pickle
file for `imageId`, replacing any previous one. -/
def saveToCache (st : CacheStore) (imageId : String) (e : CacheEntry) : CacheStore :=
  fun k => if k = imageId then some e else st k

/-- Errors of the cache-facing operations; `CacheMiss` is the raise at
`image_service.py` line 63 (`"Image not found in processing cache"`). -/
inductive CacheError where
  | CacheMiss
deriving DecidableEq

/-- Embedding of `_load_from_cache` (`image_service.py` lines 56–70): fails when the
cache file does not exist, otherwise returns the unpickled entry. -/
def loadFromCache (st : CacheStore) (imageId : String) : Except CacheError CacheEntry :=
  match st imageId with
  | none => .error .CacheMiss
  | some e => .ok e

/-- Embedding of `cleanup_cache` (`image_service.py` lines 264–270): removes the cache
file if it exists. -/
def cleanupCache (st : CacheStore) (imageId : String) : CacheStore :=
  fun k => if k = imageId then none else st k

/-- The cache write performed by a successful `process_upload`
(`image_service.py` line 102): the detection entry is stored under the
image identifier. -/
def detectPut (st : CacheStore) (imageId : String) (e : CacheEntry) : CacheStore :=
  saveToCache st imageId e

/-- Embedding of `apply_wall_color` (`image_service.py` lines 123–148), up to the cache
interaction: load the entry for the identifier, then recolor with the
cached image and mask.  The recoloring itself (`wall_detector.apply_color`)
is passed in as `applyFn`. -/
def applyWallColor (applyFn : ImageF → (ℕ → ℕ → ℕ) → Color → ImageF)
    (st : CacheStore) (imageId : String) (colorRgb : Color) : Except CacheError ImageF :=
  match loadFromCache st imageId with
  | .error e => .error e
  | .ok entry => .ok (applyFn entry.image entry.wall_mask colorRgb)

/-- A raised Python exception, identified by its class (the "kind" the
caller can catch on) and its detail message. -/
structure PyExc where
  cls : String
  detail : String
deriving DecidableEq

/-- The exception class raised throughout `image_service.py`
(`app.core.exceptions.ImageProcessingError`, HTTP 422). -/
def imageProcessingError (msg : String) : PyExc :=
  ⟨"ImageProcessingError", msg⟩

/-- The class name of `app.core.exceptions.StorageError` (HTTP 500) — the
storage-specific exception kind the repository defines but
`ImageService.__init__` does not raise. -/
def storageErrorCls : String := "StorageError"

/-- Embedding of `ImageService.__init__` (`image_service.py` lines 16–35): after
creating the cache directory, touch-and-unlink a test file; when that
write fails, raise `ImageProcessingError("Cache directory is not
writable: ...")`.  The writability of the backing directory is the oracle
input `cacheWritable`. -/
def initImageService (cacheWritable : Bool) : Except PyExc Unit :=
  if cacheWritable then .ok ()
  else .error (imageProcessingError ("Cache directory is not writable"))

/-! Auxiliary notions used to state the verified properties. -/

/-- The running-selection invariant of `detect_walls`: the merged mask is
the pixel-wise OR of the masks of the selected segments. -/
def maskInv (st : SelState) : Prop :=
  ∀ i j, st.mask i j = orMasks st.selected i j

/-- At least one entry of an integer-valued (0/255) mask inside the frame
is nonzero. -/
def anyNonzero (h w : ℕ) (m : ℕ → ℕ → ℕ) : Bool :=
  (List.range h).any fun i => (List.range w).any fun j => decide (m i j ≠ 0)

/-- The sequence of contour indices visited by the `while current != -1`
sibling walk of the hole loop, with the same fuel and stopping conditions
as `processHoles`. -/
def holeChain (cd : ContourData) : ℕ → ℤ → List ℕ
  | 0, _ => []
  | fuel + 1, cur =>
    if cur < 0 then []
    else
      match cd.contours[cur.toNat]?, cd.hier[cur.toNat]? with
      | some _, some hn => cur.toNat :: holeChain cd fuel hn.nxt
      | _, _ => []

/-- The decision taken by the hole loop for a single visited contour
index: keep it iff its area strictly exceeds 100, its perimeter strictly
exceeds 20, and its simplification at tolerance `0.002 * perimeter` has at
least 3 points; a kept hole is emitted through `holeEmit` (first vertex,
then the rest reversed). -/
def holeStep (approxFn : ApproxOracle) (cd : ContourData) (k : ℕ) : Option HolePath :=
  match cd.contours[k]? with
  | some c =>
    if 100 < c.area ∧ 20 < c.perim ∧
        3 ≤ (approxFn c.points (0.002 * c.perim)).length then
      some ⟨k, holeEmit (approxFn c.points (0.002 * c.perim))⟩
    else none
  | none => none

/-- Well-formedness of a `cv2.RETR_TREE` hierarchy, as OpenCV guarantees
it: following a `next` link stays on the same parent, and the `first
child` link points to a contour whose parent is the current contour. -/
def hierWF (cd : ContourData) : Prop :=
  ∀ (k : ℕ) (hn : HierNode), cd.hier[k]? = some hn →
    (∀ hn2, 0 ≤ hn.nxt → cd.hier[hn.nxt.toNat]? = some hn2 → hn2.parent = hn.parent) ∧
    (∀ hn2, 0 ≤ hn.child → cd.hier[hn.child.toNat]? = some hn2 → hn2.parent = (k : ℤ))

/-! Concrete inputs used by the witnesses and counterexamples below. -/

/-- A uniformly red image. -/
def imgRed3 : ImageF := fun _ _ => ⟨255, 0, 0⟩

/-- A 1×1 white image. -/
def imgWhite1 : ImageF := fun _ _ => ⟨255, 255, 255⟩

/-- A proposal whose mask is the single corner pixel (0,0) and whose
oracle measurements make the primary-pass predicate accept it on a 3×3
image: boundary-touching, solidity 9, homogeneity 0, perimeter/area 0,
area fraction 1. -/
def segCorner : Segment :=
  { segmentation := fun i j => i == 0 && j == 0
    area := 9
    score := 1
    contour0 := some ⟨1, 0⟩
    stdMean := 0 }

/-- A proposal covering the single pixel of a 1×1 image whose color
homogeneity (100) fails the primary-pass threshold, and which is not
green. -/
def segPlain1 : Segment :=
  { segmentation := fun i j => i == 0 && j == 0
    area := 1
    score := 1
    contour0 := some ⟨1, 0⟩
    stdMean := 100 }

/-- A proposal covering the single pixel of a 1×1 image that fails the
alternate detector's candidate predicate (no contour, hence solidity 0). -/
def segNoContour1 : Segment :=
  { segmentation := fun i j => i == 0 && j == 0
    area := 1
    score := 1
    contour0 := none
    stdMean := 0 }

/-- The identity polygon-simplification oracle. -/
def approxId : ApproxOracle := fun pts _ => pts

/-- A contour oracle that finds no contours in any mask. -/
def findNoContours : FindContoursOracle := fun _ _ _ => ⟨[], []⟩

/-- A square outer contour (area 1600, perimeter 160). -/
def outerSquare : Contour := ⟨[(0, 0), (40, 0), (40, 40), (0, 40)], 1600, 160⟩

/-- A hole contour sitting exactly on the area/perimeter filter boundary
(area 100, perimeter 40). -/
def holeAtBoundary : Contour := ⟨[(5, 5), (15, 5), (15, 15), (5, 15)], 100, 40⟩

/-- A hole contour strictly inside the filter (area 400, perimeter 80). -/
def holeLarge : Contour := ⟨[(5, 5), (25, 5), (25, 25), (5, 25)], 400, 80⟩

/-- Hierarchy rows for one outer contour (index 0) whose first child is
contour 1. -/
def hierParentChild : List HierNode := [⟨-1, -1, 1, -1⟩, ⟨-1, -1, -1, 0⟩]

/-- Contour data: the outer square with the boundary-sized hole. -/
def cdHoleBoundary : ContourData := ⟨[outerSquare, holeAtBoundary], hierParentChild⟩

/-- Contour data: the outer square with the large hole. -/
def cdHoleLarge : ContourData := ⟨[outerSquare, holeLarge], hierParentChild⟩

/-- A cache entry with a black image, an empty mask and no walls. -/
def entryEx : CacheEntry := ⟨fun _ _ => ⟨0, 0, 0⟩, fun _ _ => 0, []⟩

/-! General lemmas about the selection folds. -/

theorem foldl_preserves {α σ : Type} (P : σ → Prop) (step : σ → α → σ)
    (hstep : ∀ st a, P st → P (step st a)) :
    ∀ (l : List α) (st : σ), P st → P (l.foldl step st)
  | [], _, h => h
  | a :: l, st, h => foldl_preserves P step hstep l (step st a) (hstep st a h)

theorem orMasks_append (l : List Segment) (s : Segment) (i j : ℕ) :
    orMasks (l ++ [s]) i j = (orMasks l i j || s.segmentation i j) := by
  simp [orMasks]

theorem maskInv_accept {st : SelState} (hI : maskInv st) (idx : ℕ) (s : Segment) :
    maskInv (acceptSegment st idx s) := by
  intro i j
  simp [acceptSegment, maskOr, orMasks_append, hI i j]

theorem maskInv_primaryStep (h w : ℕ) (st : SelState) (p : ℕ × Segment)
    (hI : maskInv st) : maskInv (primaryStep h w st p) := by
  unfold primaryStep
  split
  · exact hI
  · split
    · exact maskInv_accept hI _ _
    · exact hI

theorem maskInv_refineStep (h w : ℕ) (img : ImageF) (wallAvg : ColorQ)
    (st : SelState) (p : ℕ × Segment) (hI : maskInv st) :
    maskInv (refineStep h w img wallAvg st p) := by
  unfold refineStep
  split
  · exact hI
  · split
    · exact hI
    · split
      · exact maskInv_accept hI _ _
      · exact hI

theorem maskInv_fallbackStep (h w : ℕ) (img : ImageF) (st : SelState)
    (p : ℕ × Segment) (hI : maskInv st) : maskInv (fallbackStep h w img st p) := by
  unfold fallbackStep
  split
  · exact hI
  · split
    · exact hI
    · split
      · exact maskInv_accept hI _ _
      · exact hI

theorem maskInv_primaryPass (h w : ℕ) (l : List (ℕ × Segment)) (st : SelState)
    (hI : maskInv st) : maskInv (primaryPass h w l st) :=
  foldl_preserves maskInv (primaryStep h w)
    (fun st p => maskInv_primaryStep h w st p) l st hI

theorem maskInv_refinementPass (h w : ℕ) (img : ImageF) (l : List (ℕ × Segment))
    (st : SelState) (hI : maskInv st) : maskInv (refinementPass h w img l st) := by
  unfold refinementPass
  split
  · exact hI
  · split
    · exact hI
    · exact foldl_preserves maskInv (refineStep h w img (avgColorQ h w img st.mask))
        (fun st' p => maskInv_refineStep h w img (avgColorQ h w img st.mask) st' p) l st hI

theorem maskInv_fallbackPass (h w : ℕ) (img : ImageF) (l : List (ℕ × Segment))
    (st : SelState) (hI : maskInv st) : maskInv (fallbackPass h w img l st) := by
  unfold fallbackPass
  split
  · exact foldl_preserves maskInv _
      (fun st' p => maskInv_fallbackStep h w img st' p) (l.take 10) st hI
  · exact hI

theorem maskInv_init : maskInv ⟨maskZero, [], []⟩ := by
  intro i j
  simp [maskZero, orMasks]

/-- **C3 (amended)**: for every image and proposal list, the mask returned
by `detect_walls` is the 15×15 morphological closing of the pixel-wise
logical OR of the masks of the returned contributing segments.  (The OR
invariant holds of the running selection; the final mask is its closing,
which can strictly enlarge it.) -/
theorem detectWalls_mask_is_closed_or (h w : ℕ) (img : ImageF)
    (segs : List Segment) (i j : ℕ) :
    (detectWalls h w img segs).mask i j =
      close15 h w (orMasks (detectWalls h w img segs).selected) i j := by
  have hI : maskInv (fallbackPass h w img (sortDescBy (fun p => p.2.area) segs.enum)
      (refinementPass h w img (sortDescBy (fun p => p.2.area) segs.enum)
        (primaryPass h w (sortDescBy (fun p => p.2.area) segs.enum) ⟨maskZero, [], []⟩))) :=
    maskInv_fallbackPass h w img _ _
      (maskInv_refinementPass h w img _ _
        (maskInv_primaryPass h w _ _ maskInv_init))
  have hmask : (fallbackPass h w img (sortDescBy (fun p => p.2.area) segs.enum)
      (refinementPass h w img (sortDescBy (fun p => p.2.area) segs.enum)
        (primaryPass h w (sortDescBy (fun p => p.2.area) segs.enum) ⟨maskZero, [], []⟩))).mask =
      orMasks (fallbackPass h w img (sortDescBy (fun p => p.2.area) segs.enum)
      (refinementPass h w img (sortDescBy (fun p => p.2.area) segs.enum)
        (primaryPass h w (sortDescBy (fun p => p.2.area) segs.enum) ⟨maskZero, [], []⟩))).selected :=
    funext fun a => funext fun b => hI a b
  show close15 h w (fallbackPass h w img (sortDescBy (fun p => p.2.area) segs.enum)
      (refinementPass h w img (sortDescBy (fun p => p.2.area) segs.enum)
        (primaryPass h w (sortDescBy (fun p => p.2.area) segs.enum) ⟨maskZero, [], []⟩))).mask i j = _
  rw [hmask]
  rfl

/-- **C3 counterexample**: on a 3×3 red image with the single accepted
corner-pixel proposal, the returned mask is true at (0,1) while the OR of
the contributing masks is false there — the closing strictly enlarged the
OR, so the returned mask is not the OR of the contributing masks. -/
theorem detectWalls_mask_ne_or_example :
    (detectWalls 3 3 imgRed3 [segCorner]).mask 0 1 = true ∧
    orMasks (detectWalls 3 3 imgRed3 [segCorner]).selected 0 1 = false := by
  constructor
  · with_unfolding_all decide
  · with_unfolding_all decide

/-- **C1 counterexample**: `detect_walls` of `wall_detector.py` has no
absolute fallback: on a 1×1 red image with one non-empty proposal that
fails the primary homogeneity threshold and is not green, every pass
rejects it and the returned selection mask has no true pixel. -/
theorem detectWalls_empty_selection_example :
    ([segPlain1] : List Segment) ≠ [] ∧
    anyTrue 1 1 (detectWalls 1 1 imgRed3 [segPlain1]).mask = false := by
  refine ⟨by simp, ?_⟩
  with_unfolding_all decide

/-! Nonemptiness of the alternate detector's selection. -/

theorem anyTrue_iff (h w : ℕ) (m : MaskF) :
    anyTrue h w m = true ↔ ∃ i, i < h ∧ ∃ j, j < w ∧ m i j = true := by
  simp [anyTrue, List.any_eq_true, List.mem_range]

theorem anyNonzero_iff (h w : ℕ) (m : ℕ → ℕ → ℕ) :
    anyNonzero h w m = true ↔ ∃ i, i < h ∧ ∃ j, j < w ∧ m i j ≠ 0 := by
  simp [anyNonzero, List.any_eq_true, List.mem_range]

theorem touchesBoundary_anyTrue (h w : ℕ) (m : MaskF) (hh : 0 < h) (hw : 0 < w)
    (ht : touchesBoundary h w m = true) : anyTrue h w m = true := by
  rw [anyTrue_iff]
  simp only [touchesBoundary, Bool.or_eq_true, List.any_eq_true, List.mem_range] at ht
  rcases ht with ((⟨j, hj, hm⟩ | ⟨j, hj, hm⟩) | ⟨i, hi, hm⟩) | ⟨i, hi, hm⟩
  · exact ⟨0, hh, j, hj, hm⟩
  · exact ⟨h - 1, by omega, j, hj, hm⟩
  · exact ⟨i, hi, 0, hw, hm⟩
  · exact ⟨i, hi, w - 1, by omega, hm⟩

/-- The invariant of the candidate fold of the alternate detector: every
selected segment passed the acceptance predicate, and every pixel of a
selected segment's mask is set in the running mask. -/
theorem candidateFold_invariant (h w : ℕ) (img : ImageF) (l : List Segment)
    (acc : List Segment × MaskF)
    (hacc : (∀ s ∈ acc.1, acceptCandidate h w img s = true) ∧
            (∀ s ∈ acc.1, ∀ i j, s.segmentation i j = true → acc.2 i j = true)) :
    (∀ s ∈ (l.foldl (candidateStep h w img) acc).1, acceptCandidate h w img s = true) ∧
    (∀ s ∈ (l.foldl (candidateStep h w img) acc).1, ∀ i j,
        s.segmentation i j = true → (l.foldl (candidateStep h w img) acc).2 i j = true) := by
  induction l generalizing acc with
  | nil => exact hacc
  | cons a l ih =>
    simp only [List.foldl_cons]
    apply ih
    unfold candidateStep
    by_cases ha : acceptCandidate h w img a = true
    · rw [if_pos ha]
      constructor
      · intro s hs
        rcases List.mem_append.mp hs with hs | hs
        · exact hacc.1 s hs
        · rcases List.mem_singleton.mp hs with rfl
          exact ha
      · intro s hs i j hij
        rcases List.mem_append.mp hs with hs | hs
        · simp [maskOr, hacc.2 s hs i j hij]
        · rcases List.mem_singleton.mp hs with rfl
          simp [maskOr, hij]
    · rw [if_neg ha]
      exact hacc

/-- **C1 (amended)**: the absolute fallback lives in the
`wall_detectorr.py` variant: whenever the proposal list is non-empty and
the largest proposal's mask has at least one pixel in frame, its
`detect_walls` returns a selection mask with at least one nonzero entry —
either some candidate was accepted (and its mask touches the boundary), or
none was and the largest proposal is selected outright. -/
theorem detectWallsR_selection_nonempty (h w : ℕ) (img : ImageF)
    (segs : List Segment) (s0 : Segment) (rest : List Segment)
    (hh : 0 < h) (hw : 0 < w)
    (hsort : sortDescBy (fun s => s.area) segs = s0 :: rest)
    (hs0 : anyTrue h w s0.segmentation = true) :
    anyNonzero h w (detectWallsR h w img segs).wall_mask = true := by
  have hmain : detectWallsR h w img segs =
      { wall_mask := toMask255
          (fallbackLargest
            (((s0 :: rest).take (max 1 (3 * (s0 :: rest).length / 10))).foldl
              (candidateStep h w img) ([], maskZero)) (s0 :: rest)).2
        masks := (fallbackLargest
            (((s0 :: rest).take (max 1 (3 * (s0 :: rest).length / 10))).foldl
              (candidateStep h w img) ([], maskZero)) (s0 :: rest)).1 } := by
    unfold detectWallsR
    rw [hsort]
  set sel := ((s0 :: rest).take (max 1 (3 * (s0 :: rest).length / 10))).foldl
      (candidateStep h w img) ([], maskZero) with hseldef
  have hinv := candidateFold_invariant h w img
    ((s0 :: rest).take (max 1 (3 * (s0 :: rest).length / 10))) ([], maskZero)
    ⟨by simp, by simp⟩
  rw [hmain, anyNonzero_iff]
  cases hsel : sel.1 with
  | nil =>
    have hf : fallbackLargest sel (s0 :: rest) = ([s0], maskOr sel.2 s0.segmentation) := by
      unfold fallbackLargest
      rw [hsel]
    rcases (anyTrue_iff h w s0.segmentation).mp hs0 with ⟨i, hi, j, hj, hij⟩
    refine ⟨i, hi, j, hj, ?_⟩
    rw [hf]
    simp [toMask255, maskOr, hij]
  | cons s srest =>
    have hf : fallbackLargest sel (s0 :: rest) = sel := by
      unfold fallbackLargest
      rw [hsel]
    have hs : s ∈ sel.1 := by rw [hsel]; exact List.mem_cons_self s srest
    have hacc := hinv.1 s hs
    have htb : touchesBoundary h w s.segmentation = true := by
      unfold acceptCandidate at hacc
      simp only [Bool.and_eq_true] at hacc
      exact hacc.1.1
    rcases (anyTrue_iff h w s.segmentation).mp
      (touchesBoundary_anyTrue h w s.segmentation hh hw htb) with ⟨i, hi, j, hj, hij⟩
    refine ⟨i, hi, j, hj, ?_⟩
    have hm : sel.2 i j = true := hinv.2 s hs i j hij
    rw [hf]
    simp [toMask255, hm]

/-- **C1 (amended) witness**: a 1×1 white image with a single one-pixel
proposal that fails the candidate predicate — the fallback selects it and
the returned mask is nonzero at its pixel. -/
theorem detectWallsR_selection_nonempty_witness :
    anyNonzero 1 1 (detectWallsR 1 1 imgWhite1 [segNoContour1]).wall_mask = true :=
  detectWallsR_selection_nonempty 1 1 imgWhite1 [segNoContour1] segNoContour1 []
    (by decide) (by decide) rfl (by with_unfolding_all decide)

/-! Cache discipline and service initialization. -/

/-- **C8**: for an identifier with no cached entry, loading fails with
`CacheMiss`; after a detect's cache write it returns the stored entry in
full; after cleanup it fails with `CacheMiss` again — and therefore
`apply_wall_color` fails, succeeds, and fails again on the same three
states. -/
theorem cache_discipline (applyFn : ImageF → (ℕ → ℕ → ℕ) → Color → ImageF)
    (st : CacheStore) (imageId : String) (e : CacheEntry) (colorRgb : Color)
    (hAbsent : st imageId = none) :
    loadFromCache st imageId = .error .CacheMiss ∧
    loadFromCache (detectPut st imageId e) imageId = .ok e ∧
    loadFromCache (cleanupCache (detectPut st imageId e) imageId) imageId =
      .error .CacheMiss ∧
    applyWallColor applyFn st imageId colorRgb = .error .CacheMiss ∧
    applyWallColor applyFn (detectPut st imageId e) imageId colorRgb =
      .ok (applyFn e.image e.wall_mask colorRgb) ∧
    applyWallColor applyFn (cleanupCache (detectPut st imageId e) imageId) imageId colorRgb =
      .error .CacheMiss := by
  simp [loadFromCache, detectPut, saveToCache, cleanupCache, applyWallColor, hAbsent]

/-- **C8 witness**: the cache discipline at the empty store, identifier
`room1`, and a concrete entry and color. -/
theorem cache_discipline_witness :
    loadFromCache emptyStore ("room1") = .error .CacheMiss ∧
    loadFromCache (detectPut emptyStore ("room1") entryEx) ("room1") = .ok entryEx ∧
    loadFromCache (cleanupCache (detectPut emptyStore ("room1") entryEx) ("room1"))
      ("room1") = .error .CacheMiss ∧
    applyWallColor (fun img _ _ => img) emptyStore ("room1") ⟨255, 0, 0⟩ =
      .error .CacheMiss ∧
    applyWallColor (fun img _ _ => img) (detectPut emptyStore ("room1") entryEx)
      ("room1") ⟨255, 0, 0⟩ = .ok entryEx.image ∧
    applyWallColor (fun img _ _ => img)
      (cleanupCache (detectPut emptyStore ("room1") entryEx) ("room1")) ("room1")
      ⟨255, 0, 0⟩ = .error .CacheMiss :=
  cache_discipline (fun img _ _ => img) emptyStore ("room1") entryEx ⟨255, 0, 0⟩ rfl

/-- **C9 counterexample**: when the cache directory is not writable,
`ImageService.__init__` does fail fast, but the exception it raises is the
ordinary `ImageProcessingError` — the very class used for ordinary
processing failures such as a cache miss — and not the distinct
storage-error kind (`StorageError`) that `app/core/exceptions.py`
defines. -/
theorem init_failure_kind_not_distinct :
    initImageService false =
      .error (imageProcessingError ("Cache directory is not writable")) ∧
    (imageProcessingError ("Cache directory is not writable")).cls =
      (imageProcessingError ("Image not found in processing cache")).cls ∧
    (imageProcessingError ("Cache directory is not writable")).cls ≠ storageErrorCls := by
  refine ⟨rfl, rfl, ?_⟩
  simp [imageProcessingError, storageErrorCls]

/-- **C9 (amended)**: at initialization the service verifies that the
cache directory is writable and fails fast when it is not, raising
`ImageProcessingError` (the ordinary processing-error class, with a
storage-specific message) rather than a distinct storage-unavailable
kind. -/
theorem initImageService_spec :
    initImageService true = .ok () ∧
    (∃ msg, initImageService false = .error ⟨"ImageProcessingError", msg⟩) ∧
    (imageProcessingError ("Cache directory is not writable")).cls ≠ storageErrorCls := by
  refine ⟨rfl, ⟨"Cache directory is not writable", rfl⟩, ?_⟩
  simp [imageProcessingError, storageErrorCls]

/-! The hue/saturation recoloring stage. -/

/-- **C4**: in hue/saturation mode, every pixel under the selection mask
has its hue and saturation overwritten with the target color's and its
value channel set to the truncated `clip(targetV * (1 - 0.7) + origV *
0.7, 0, 255)` — the fixed blend factor `L = 0.7` — before the edge
blending stage runs. -/
theorem applyColorHSV_masked_pixel (mask : MaskF) (hsvImg : HSVImageF)
    (colorHsv : HSV) (i j : ℕ) (hm : mask i j = true) :
    applyColorHSV mask hsvImg colorHsv i j =
      { hue := colorHsv.hue
        sat := colorHsv.sat
        val := (qtrunc (clipQ ((colorHsv.val : ℚ) * (1 - 0.7) +
          ((hsvImg i j).val : ℚ) * 0.7) 0 255)).toNat } := by
  simp [applyColorHSV, blendValue, hm]

/-- **C4 witness**: a fully-masked pixel with original value 100 and
target value 30 becomes (target hue, target saturation, 79), since
`30 * 0.3 + 100 * 0.7 = 79`. -/
theorem applyColorHSV_masked_pixel_witness :
    applyColorHSV (fun _ _ => true) (fun _ _ => ⟨10, 20, 100⟩) ⟨120, 250, 30⟩ 0 0 =
      ⟨120, 250, 79⟩ := by
  rw [applyColorHSV_masked_pixel (fun _ _ => true) (fun _ _ => ⟨10, 20, 100⟩)
    ⟨120, 250, 30⟩ 0 0 rfl]
  with_unfolding_all rfl

/-! The primary-pass acceptance predicate. -/

theorem mem_insertDescBy {α : Type} (key : α → ℕ) (p x : α) (l : List α) :
    x ∈ insertDescBy key p l ↔ x = p ∨ x ∈ l := by
  induction l with
  | nil => simp [insertDescBy]
  | cons q rest ih =>
    simp only [insertDescBy]
    split
    · simp only [List.mem_cons]
    · simp only [List.mem_cons, ih]
      tauto

theorem insertDescBy_perm {α : Type} (key : α → ℕ) (p : α) (l : List α) :
    (insertDescBy key p l).Perm (p :: l) := by
  induction l with
  | nil => simp [insertDescBy]
  | cons q rest ih =>
    simp only [insertDescBy]
    split
    · exact List.Perm.refl _
    · exact (ih.cons q).trans (List.Perm.swap p q rest)

theorem sortDescBy_perm {α : Type} (key : α → ℕ) (l : List α) :
    (sortDescBy key l).Perm l := by
  induction l with
  | nil => simp [sortDescBy]
  | cons a l ih =>
    exact (insertDescBy_perm key a (sortDescBy key l)).trans (ih.cons a)

theorem pairwise_insertDescBy {α : Type} (key : α → ℕ) (p : α) (l : List α)
    (h : l.Pairwise fun a b => key b ≤ key a) :
    (insertDescBy key p l).Pairwise fun a b => key b ≤ key a := by
  induction l with
  | nil => simp [insertDescBy]
  | cons q rest ih =>
    rcases List.pairwise_cons.mp h with ⟨hq, hrest⟩
    simp only [insertDescBy]
    split
    · rename_i hle
      refine List.pairwise_cons.mpr ⟨?_, h⟩
      intro y hy
      rcases List.mem_cons.mp hy with rfl | hy
      · exact hle
      · exact le_trans (hq y hy) hle
    · rename_i hgt
      refine List.pairwise_cons.mpr ⟨?_, ih hrest⟩
      intro y hy
      rcases (mem_insertDescBy key p y rest).mp hy with rfl | hy
      · omega
      · exact hq y hy

theorem sortDescBy_pairwise {α : Type} (key : α → ℕ) (l : List α) :
    (sortDescBy key l).Pairwise fun a b => key b ≤ key a := by
  induction l with
  | nil => simp [sortDescBy]
  | cons a l ih => exact pairwise_insertDescBy key a (sortDescBy key l) ih

/-- The accepted indices of the primary pass are exactly the indices of
the proposals (in processing order) that have a pixel and satisfy
`is_wall`. -/
theorem primaryPass_ids (h w : ℕ) (l : List (ℕ × Segment)) (st : SelState) :
    (primaryPass h w l st).ids =
      st.ids ++ (l.filter fun p =>
        decide (pixelCount h w p.2.segmentation ≠ 0) && isWall h w p.2).map Prod.fst := by
  induction l generalizing st with
  | nil => simp [primaryPass]
  | cons p l ih =>
    have hstep : primaryPass h w (p :: l) st = primaryPass h w l (primaryStep h w st p) := by
      simp [primaryPass]
    rw [hstep, ih, List.filter_cons]
    unfold primaryStep
    by_cases h0 : pixelCount h w p.2.segmentation = 0
    · simp [h0]
    · by_cases hW : isWall h w p.2 = true
      · simp [h0, hW, acceptSegment]
      · simp [h0, hW]

theorem sorted_enum_keys_nodup (segs : List Segment) :
    ((sortDescBy (fun p : ℕ × Segment => p.2.area) segs.enum).map Prod.fst).Nodup := by
  have hperm : ((sortDescBy (fun p : ℕ × Segment => p.2.area) segs.enum).map Prod.fst).Perm
      (segs.enum.map Prod.fst) := (sortDescBy_perm _ _).map _
  rw [hperm.nodup_iff, List.enum_map_fst]
  exact List.nodup_range _

theorem filter_keys_mem_iff {l : List (ℕ × Segment)} (hnd : (l.map Prod.fst).Nodup)
    (pred : ℕ × Segment → Bool) (p : ℕ × Segment) (hp : p ∈ l) :
    (p.1 ∈ (l.filter pred).map Prod.fst) ↔ pred p = true := by
  constructor
  · intro hmem
    rcases List.mem_map.mp hmem with ⟨q, hq, hfst⟩
    rcases List.mem_filter.mp hq with ⟨hql, hqpred⟩
    have hqp : q = p := List.inj_on_of_nodup_map hnd hql hp hfst
    rwa [← hqp]
  · intro hpred
    exact List.mem_map.mpr ⟨p, List.mem_filter.mpr ⟨hp, hpred⟩, rfl⟩

/-- **C2**: the primary pass iterates over the proposals in
descending-area order, and a proposal with at least one pixel is accepted
as a wall candidate if and only if it touches the image boundary, its
solidity exceeds 0.75, its color homogeneity is below 30, its
perimeter/area quotient is below 0.1, and its area fraction of the image
exceeds 0.05. -/
theorem primary_pass_accepts_iff (h w : ℕ) (segs : List Segment) (p : ℕ × Segment)
    (hmem : p ∈ sortDescBy (fun q : ℕ × Segment => q.2.area) segs.enum)
    (hpix : 0 < pixelCount h w p.2.segmentation) :
    (sortDescBy (fun q : ℕ × Segment => q.2.area) segs.enum).Pairwise
      (fun a b => b.2.area ≤ a.2.area) ∧
    (p.1 ∈ (primaryPass h w (sortDescBy (fun q : ℕ × Segment => q.2.area) segs.enum)
        ⟨maskZero, [], []⟩).ids ↔
      (touchesBoundary h w p.2.segmentation = true ∧
       (0.75 : ℚ) < solidityOf p.2 ∧
       p.2.stdMean < 30 ∧
       extLt (perimOverArea p.2) 0.1 = true ∧
       (0.05 : ℚ) < (p.2.area : ℚ) / ((h : ℚ) * (w : ℚ)))) := by
  refine ⟨sortDescBy_pairwise _ _, ?_⟩
  rw [primaryPass_ids]
  rw [show (SelState.mk maskZero [] []).ids = [] from rfl, List.nil_append]
  rw [filter_keys_mem_iff (sorted_enum_keys_nodup segs) _ p hmem]
  have hne : decide (pixelCount h w p.2.segmentation ≠ 0) = true := by
    simp only [decide_eq_true_iff]
    omega
  rw [hne, Bool.true_and]
  unfold isWall
  simp only [Bool.and_eq_true, decide_eq_true_iff]
  tauto

/-- **C2 witness**: on a 3×3 image with the single corner-pixel proposal
whose oracle metrics satisfy every primary-pass criterion, index 0 is
accepted and the acceptance condition evaluates to true. -/
theorem primary_pass_accepts_iff_witness :
    (sortDescBy (fun q : ℕ × Segment => q.2.area) ([segCorner] : List Segment).enum).Pairwise
      (fun a b => b.2.area ≤ a.2.area) ∧
    ((0, segCorner).1 ∈ (primaryPass 3 3
        (sortDescBy (fun q : ℕ × Segment => q.2.area) ([segCorner] : List Segment).enum)
        ⟨maskZero, [], []⟩).ids ↔
      (touchesBoundary 3 3 (0, segCorner).2.segmentation = true ∧
       (0.75 : ℚ) < solidityOf (0, segCorner).2 ∧
       (0, segCorner).2.stdMean < 30 ∧
       extLt (perimOverArea (0, segCorner).2) 0.1 = true ∧
       (0.05 : ℚ) < ((0, segCorner).2.area : ℚ) / ((3 : ℚ) * (3 : ℚ)))) :=
  primary_pass_accepts_iff 3 3 [segCorner] (0, segCorner)
    (by rw [show sortDescBy (fun q : ℕ × Segment => q.2.area)
        ([segCorner] : List Segment).enum = [(0, segCorner)] from rfl]
        exact List.mem_singleton.mpr rfl)
    (by decide)

/-! Pixels far from the selection are untouched by `apply_color`. -/

theorem qtrunc_natCast (n : ℕ) : qtrunc (n : ℚ) = (n : ℤ) := by
  unfold qtrunc
  rw [Rat.num_natCast, Rat.den_natCast]
  rw [show ((1 : ℕ) : ℤ) = 1 from rfl]
  rw [Int.fdiv_eq_ediv _ (by norm_num), Int.ediv_one]

theorem blendChannel_zero (rc oc : ℕ) (hoc : oc < 256) : blendChannel 0 rc oc = oc := by
  unfold blendChannel
  rw [show (0 : ℚ) * (rc : ℚ) + (1 - 0) * (oc : ℚ) = (oc : ℚ) by ring]
  rw [qtrunc_natCast]
  simp [Nat.mod_eq_of_lt hoc]

theorem reflect101_lt (n : ℕ) (hn : 0 < n) (x : ℤ) : reflect101 n x < n := by
  unfold reflect101
  split
  · omega
  · rename_i hn1
    have hne : (2 * (n : ℤ) - 2) ≠ 0 := by omega
    have hpos : (0 : ℤ) < 2 * (n : ℤ) - 2 := by omega
    have hnn := Int.emod_nonneg x hne
    have hlt := Int.emod_lt_of_pos x hpos
    split <;> omega

theorem reflect101_near (n i : ℕ) (d : ℤ) (hi : i < n) (hd : d.natAbs ≤ 10) :
    (((reflect101 n ((i : ℤ) + d) : ℕ) : ℤ) - (i : ℤ)).natAbs ≤ 10 := by
  unfold reflect101
  by_cases hn1 : n ≤ 1
  · simp only [hn1, if_true]
    omega
  · simp only [hn1, if_false]
    have hic : (i : ℤ) < (n : ℤ) := by exact_mod_cast hi
    have hne : (2 * (n : ℤ) - 2) ≠ 0 := by omega
    have hpos : (0 : ℤ) < 2 * (n : ℤ) - 2 := by omega
    rcases le_or_lt 12 n with hbig | hsmall
    · rcases le_or_lt 0 ((i : ℤ) + d) with hx0 | hx0
      · have hbig' : (12 : ℤ) ≤ (n : ℤ) := by exact_mod_cast hbig
        have hmod : ((i : ℤ) + d) % (2 * (n : ℤ) - 2) = (i : ℤ) + d :=
          Int.emod_eq_of_lt hx0 (by omega)
        rw [hmod]
        split <;> omega
      · have hbig' : (12 : ℤ) ≤ (n : ℤ) := by exact_mod_cast hbig
        have hmod : ((i : ℤ) + d) % (2 * (n : ℤ) - 2) = (i : ℤ) + d + (2 * (n : ℤ) - 2) := by
          have h1 : ((i : ℤ) + d + (2 * (n : ℤ) - 2) * 1) % (2 * (n : ℤ) - 2) =
              ((i : ℤ) + d) % (2 * (n : ℤ) - 2) := Int.add_mul_emod_self_left _ _ _
          rw [mul_one] at h1
          have h2 : ((i : ℤ) + d + (2 * (n : ℤ) - 2)) % (2 * (n : ℤ) - 2) =
              (i : ℤ) + d + (2 * (n : ℤ) - 2) := Int.emod_eq_of_lt (by omega) (by omega)
          omega
        rw [hmod]
        split <;> omega
    · have hnn := Int.emod_nonneg ((i : ℤ) + d) hne
      have hlt := Int.emod_lt_of_pos ((i : ℤ) + d) hpos
      split <;> omega

theorem blurMask21_far_zero (wts : ℕ → ℕ → ℚ) (h w : ℕ) (m : MaskF) (i j : ℕ)
    (hi : i < h) (hj : j < w)
    (hfar : ∀ a b, a < h → b < w → ((i : ℤ) - (a : ℤ)).natAbs ≤ 10 →
      ((j : ℤ) - (b : ℤ)).natAbs ≤ 10 → m a b = false) :
    blurMask21 wts h w m i j = 0 := by
  unfold blurMask21
  apply List.sum_eq_zero
  intro x hx
  rcases List.mem_map.mp hx with ⟨di, hdi, rfl⟩
  apply List.sum_eq_zero
  intro y hy
  rcases List.mem_map.mp hy with ⟨dj, hdj, rfl⟩
  have hdi21 : di < 21 := List.mem_range.mp hdi
  have hdj21 : dj < 21 := List.mem_range.mp hdj
  have harga : (i : ℤ) + (di : ℤ) - 10 = (i : ℤ) + ((di : ℤ) - 10) := by ring
  have hargb : (j : ℤ) + (dj : ℤ) - 10 = (j : ℤ) + ((dj : ℤ) - 10) := by ring
  have hna := reflect101_near h i ((di : ℤ) - 10) hi (by omega)
  have hnb := reflect101_near w j ((dj : ℤ) - 10) hj (by omega)
  rw [← harga] at hna
  rw [← hargb] at hnb
  have hm : m (reflect101 h ((i : ℤ) + (di : ℤ) - 10))
      (reflect101 w ((j : ℤ) + (dj : ℤ) - 10)) = false := by
    apply hfar
    · exact reflect101_lt h (by omega) _
    · exact reflect101_lt w (by omega) _
    · omega
    · omega
  rw [hm]
  simp

/-- **C5**: any pixel whose Chebyshev distance to every in-frame mask
pixel exceeds the 21×21 Gaussian kernel radius of 10 has blurred-mask
alpha exactly 0, so the final blend returns the original 8-bit pixel
bit-for-bit, whatever the kernel weights and color-space conversions. -/
theorem applyColor_far_pixel_unchanged (rgbToHsv : Color → HSV) (hsvToRgb : HSV → Color)
    (wts : ℕ → ℕ → ℚ) (h w : ℕ) (img : ImageF) (mask : MaskF) (colorRgb : Color)
    (i j : ℕ) (hi : i < h) (hj : j < w)
    (himg : (img i j).red < 256 ∧ (img i j).green < 256 ∧ (img i j).blue < 256)
    (hfar : ∀ a b, a < h → b < w → ((i : ℤ) - (a : ℤ)).natAbs ≤ 10 →
      ((j : ℤ) - (b : ℤ)).natAbs ≤ 10 → mask a b = false) :
    applyColor rgbToHsv hsvToRgb wts h w img mask colorRgb i j = img i j := by
  have hz := blurMask21_far_zero wts h w mask i j hi hj hfar
  simp only [applyColor]
  rw [hz]
  rw [blendChannel_zero _ _ himg.1, blendChannel_zero _ _ himg.2.1,
    blendChannel_zero _ _ himg.2.2]

/-- **C5 witness**: on a 1×1 image with an empty mask, `apply_color`
returns the original pixel unchanged. -/
theorem applyColor_far_pixel_witness :
    applyColor (fun _ => ⟨1, 2, 3⟩) (fun _ => ⟨4, 5, 6⟩) (fun _ _ => 0) 1 1
      (fun _ _ => ⟨7, 8, 9⟩) (fun _ _ => false) ⟨200, 10, 10⟩ 0 0 = ⟨7, 8, 9⟩ := by
  have hc := applyColor_far_pixel_unchanged (fun _ => ⟨1, 2, 3⟩) (fun _ => ⟨4, 5, 6⟩)
    (fun _ _ => 0) 1 1 (fun _ _ => ⟨7, 8, 9⟩) (fun _ _ => false) ⟨200, 10, 10⟩ 0 0
    (by decide) (by decide) ⟨by decide, by decide, by decide⟩
    (fun _ _ _ _ _ _ => rfl)
  exact hc

/-! The contour-to-vector-path encoder. -/

theorem foldl_collect_eq_filterMap {β : Type} (f : ℕ → Option β) (l : List ℕ)
    (acc : List β) :
    l.foldl (collectStep f) acc = acc ++ l.filterMap f := by
  induction l generalizing acc with
  | nil => simp
  | cons x l ih =>
    simp only [List.foldl_cons, List.filterMap_cons]
    cases hfx : f x with
    | none => simp [collectStep, hfx, ih]
    | some p => simp [collectStep, hfx, ih]

theorem encodePaths_eq_filterMap (approxFn : ApproxOracle) (cd : ContourData) :
    encodePaths approxFn cd =
      (List.range (min cd.contours.length cd.hier.length)).filterMap
        (outerStep approxFn cd) := by
  unfold encodePaths
  rw [foldl_collect_eq_filterMap]
  simp

/-- **C6**: the encoder fails with `EmptySelection` on a mask with no
foreground pixel (for which `cv2.findContours` finds no contours), fails
with `NoValidPath` when contours exist but every one is dropped by the
filters, and the two failure kinds are distinct (distinct raise sites with
distinct detail messages); in both cases no path string is returned. -/
theorem encode_failure_modes (findFn : FindContoursOracle) (approxFn : ApproxOracle)
    (h w : ℕ) (mask : MaskF) (hdim : 0 < h * w)
    (hfind : anyTrue h w mask = false → (findFn h w mask).contours = []) :
    (anyTrue h w mask = false →
      encodeMaskCoordinates findFn approxFn h w mask = .error .EmptySelection) ∧
    ((findFn h w mask).contours ≠ [] →
      (∀ idx, outerStep approxFn (findFn h w mask) idx = none) →
      encodeMaskCoordinates findFn approxFn h w mask = .error .NoValidPath) ∧
    EncodeError.EmptySelection ≠ EncodeError.NoValidPath ∧
    encodeErrorDetail .EmptySelection ≠ encodeErrorDetail .NoValidPath := by
  refine ⟨?_, ?_, by decide, by simp [encodeErrorDetail]⟩
  · intro hempty
    unfold encodeMaskCoordinates
    rw [if_neg (by omega)]
    simp [hfind hempty]
  · intro hne hall
    unfold encodeMaskCoordinates
    rw [if_neg (by omega)]
    have hc : (findFn h w mask).contours.isEmpty = false := by
      cases hcc : (findFn h w mask).contours with
      | nil => exact absurd hcc hne
      | cons a l => simp [hcc]
    have hp : encodePaths approxFn (findFn h w mask) = [] := by
      rw [encodePaths_eq_filterMap]
      exact List.filterMap_eq_nil_iff.mpr fun a _ => hall a
    simp [hc, hp]

/-- **C6 witness**: an all-black 1×1 mask fails with `EmptySelection`. -/
theorem encode_failure_modes_witness :
    encodeMaskCoordinates findNoContours approxId 1 1 maskZero =
      .error .EmptySelection :=
  (encode_failure_modes findNoContours approxId 1 1 maskZero (by decide)
    (fun _ => rfl)).1 rfl

/-- **C7 counterexample**: a hole contour of area exactly 100 (perimeter
40) passes the outer-contour filter "drop when area is below 100 or
perimeter below 20" and keeps at least 3 points after simplification, yet
the encoder emits no hole for it — the hole filter is strict
(`area > 100 and perimeter > 20`), not the outer one. -/
theorem hole_filter_strict_example :
    cdHoleBoundary.contours[1]? = some holeAtBoundary ∧
    ¬ (holeAtBoundary.area < 100 ∨ holeAtBoundary.perim < 20) ∧
    3 ≤ (approxId holeAtBoundary.points (0.002 * holeAtBoundary.perim)).length ∧
    encodePaths approxId cdHoleBoundary = [⟨0, outerSquare.points, []⟩] := by
  refine ⟨rfl, ?_, ?_, ?_⟩
  · with_unfolding_all decide
  · with_unfolding_all decide
  · with_unfolding_all decide

/-- **C7 (amended)**: the hole loop walks the sibling chain, keeps a hole
iff its area strictly exceeds 100, its perimeter strictly exceeds 20
(strict thresholds, unlike the outer-contour filter which drops only
strictly-below values), and its simplification at tolerance
`0.002 * perimeter` has at least 3 points; a kept hole is emitted as its
first simplified vertex followed by the remaining vertices in reversed
order — the reversed cyclic traversal. -/
theorem processHoles_filter_and_reversal (approxFn : ApproxOracle) (cd : ContourData) :
    ∀ (fuel : ℕ) (cur : ℤ),
    processHoles approxFn cd fuel cur =
      (holeChain cd fuel cur).filterMap (holeStep approxFn cd) := by
  intro fuel
  induction fuel with
  | zero => intro cur; rfl
  | succ fuel ih =>
    intro cur
    unfold processHoles holeChain
    by_cases hneg : cur < 0
    · simp [hneg]
    · simp only [hneg, if_false]
      cases hc : cd.contours[cur.toNat]? with
      | none =>
        cases hh : cd.hier[cur.toNat]? <;> simp [hc, hh]
      | some c =>
        cases hh : cd.hier[cur.toNat]? with
        | none => simp [hc, hh]
        | some hn =>
          simp only [hc, hh]
          rw [List.filterMap_cons]
          by_cases h12 : (decide (100 < c.area) && decide (20 < c.perim)) = true
          · rw [if_pos h12]
            simp only [Bool.and_eq_true, decide_eq_true_iff] at h12
            by_cases h3 : 3 ≤ (approxFn c.points (0.002 * c.perim)).length
            · rw [if_pos h3]
              have hf : holeStep approxFn cd cur.toNat =
                  some ⟨cur.toNat, holeEmit (approxFn c.points (0.002 * c.perim))⟩ := by
                simp only [holeStep, hc]
                rw [if_pos ⟨h12.1, h12.2, h3⟩]
              rw [hf, ih hn.nxt]
            · rw [if_neg h3]
              have hf : holeStep approxFn cd cur.toNat = none := by
                simp only [holeStep, hc]
                rw [if_neg (by tauto)]
              rw [hf, ih hn.nxt]
          · rw [if_neg h12]
            simp only [Bool.and_eq_true, decide_eq_true_iff] at h12
            have hf : holeStep approxFn cd cur.toNat = none := by
              simp only [holeStep, hc]
              rw [if_neg (by tauto)]
            rw [hf, ih hn.nxt]

/-- The hole loop only ever visits (and hence only ever emits) contours
whose hierarchy parent is `par`, provided the walk starts at a contour of
parent `par` and the hierarchy is well-formed. -/
theorem processHoles_parent (approxFn : ApproxOracle) (cd : ContourData)
    (hwf : hierWF cd) (par : ℤ) :
    ∀ (fuel : ℕ) (cur : ℤ),
      (∀ hn, 0 ≤ cur → cd.hier[cur.toNat]? = some hn → hn.parent = par) →
      ∀ hp ∈ processHoles approxFn cd fuel cur,
        ∃ hn, cd.hier[hp.srcIdx]? = some hn ∧ hn.parent = par := by
  intro fuel
  induction fuel with
  | zero =>
    intro cur hcur hp hmem
    simp [processHoles] at hmem
  | succ fuel ih =>
    intro cur hcur hp hmem
    unfold processHoles at hmem
    by_cases hneg : cur < 0
    · simp [hneg] at hmem
    · simp only [hneg, if_false] at hmem
      cases hc : cd.contours[cur.toNat]? with
      | none => simp [hc] at hmem
      | some c =>
        cases hh : cd.hier[cur.toNat]? with
        | none => simp [hc, hh] at hmem
        | some hn =>
          simp only [hc, hh] at hmem
          have hpar : hn.parent = par := hcur hn (by omega) hh
          have hnext : ∀ hn2, 0 ≤ hn.nxt →
              cd.hier[hn.nxt.toNat]? = some hn2 → hn2.parent = par := by
            intro hn2 hge h2
            rw [← hpar]
            exact (hwf cur.toNat hn hh).1 hn2 hge h2
          by_cases h1 : (decide (100 < c.area) && decide (20 < c.perim)) = true
          · rw [if_pos h1] at hmem
            by_cases h3 : 3 ≤ (approxFn c.points (0.002 * c.perim)).length
            · rw [if_pos h3] at hmem
              rcases List.mem_cons.mp hmem with rfl | hmem2
              · exact ⟨hn, hh, hpar⟩
              · exact ih hn.nxt hnext hp hmem2
            · rw [if_neg h3] at hmem
              exact ih hn.nxt hnext hp hmem
          · rw [if_neg h1] at hmem
            exact ih hn.nxt hnext hp hmem

/-- **C10**: in a well-formed contour hierarchy, every sub-path the
encoder emits comes either from a top-level outer contour (parent −1) or
from a direct child of the outer contour it is attached to — contours at
nesting depth two or more are never emitted. -/
theorem encoded_subpaths_depth_le_one (approxFn : ApproxOracle) (cd : ContourData)
    (hwf : hierWF cd) (P : OuterPath) (hP : P ∈ encodePaths approxFn cd) :
    (∃ hn, cd.hier[P.srcIdx]? = some hn ∧ hn.parent = -1) ∧
    (∀ hp ∈ P.holes, ∃ hn, cd.hier[hp.srcIdx]? = some hn ∧
      hn.parent = (P.srcIdx : ℤ)) := by
  rw [encodePaths_eq_filterMap] at hP
  rcases List.mem_filterMap.mp hP with ⟨idx, _, hstep⟩
  unfold outerStep at hstep
  cases hc : cd.contours[idx]? with
  | none => simp [hc] at hstep
  | some c =>
    cases hh : cd.hier[idx]? with
    | none => simp [hc, hh] at hstep
    | some hn =>
      simp only [hc, hh] at hstep
      by_cases hpar : hn.parent ≠ -1
      · rw [if_pos hpar] at hstep
        exact absurd hstep (by simp)
      · rw [if_neg hpar] at hstep
        push_neg at hpar
        by_cases hp3 : c.points.length < 3
        · rw [if_pos hp3] at hstep
          exact absurd hstep (by simp)
        · rw [if_neg hp3] at hstep
          by_cases hsmall : c.area < 100 ∨ c.perim < 20
          · rw [if_pos hsmall] at hstep
            exact absurd hstep (by simp)
          · rw [if_neg hsmall] at hstep
            by_cases ha3 : (approxFn c.points (0.002 * c.perim)).length < 3
            · rw [if_pos ha3] at hstep
              exact absurd hstep (by simp)
            · rw [if_neg ha3] at hstep
              rw [Option.some_inj] at hstep
              subst hstep
              refine ⟨⟨hn, hh, hpar⟩, ?_⟩
              intro hp hmem
              exact processHoles_parent approxFn cd hwf (idx : ℤ)
                cd.contours.length hn.child
                (fun hn2 hge h2 => (hwf idx hn hh).2 hn2 hge h2) hp hmem

/-- **C10 witness**: for the outer square with its large hole, the single
emitted path is the top-level contour 0 and its one hole is contour 1,
whose parent is 0. -/
theorem encoded_subpaths_depth_witness :
    (∃ hn, cdHoleLarge.hier[(OuterPath.mk 0 outerSquare.points [⟨1, holeEmit holeLarge.points⟩]).srcIdx]? =
        some hn ∧ hn.parent = -1) ∧
    (∀ hp ∈ (OuterPath.mk 0 outerSquare.points [⟨1, holeEmit holeLarge.points⟩]).holes,
      ∃ hn, cdHoleLarge.hier[hp.srcIdx]? = some hn ∧
        hn.parent = ((OuterPath.mk 0 outerSquare.points
          [⟨1, holeEmit holeLarge.points⟩]).srcIdx : ℤ)) := by
  have hwf : hierWF cdHoleLarge := by
    intro k hn hk
    match k with
    | 0 =>
      simp only [cdHoleLarge, hierParentChild, List.getElem?_cons_zero, List.getElem?_cons_succ] at hk
      rw [Option.some_inj] at hk
      subst hk
      constructor
      · intro hn2 hge _
        exact absurd hge (by decide)
      · intro hn2 hge h2
        simp only [cdHoleLarge, hierParentChild] at h2
        rw [show ((⟨-1, -1, 1, -1⟩ : HierNode).child).toNat = 1 from rfl] at h2
        simp only [List.getElem?_cons_zero, List.getElem?_cons_succ] at h2
        rw [Option.some_inj] at h2
        subst h2
        rfl
    | 1 =>
      simp only [cdHoleLarge, hierParentChild, List.getElem?_cons_zero, List.getElem?_cons_succ] at hk
      rw [Option.some_inj] at hk
      subst hk
      constructor
      · intro hn2 hge _
        exact absurd hge (by decide)
      · intro hn2 hge _
        exact absurd hge (by decide)
    | (k + 2) =>
      simp [cdHoleLarge, hierParentChild] at hk
  exact encoded_subpaths_depth_le_one approxId cdHoleLarge hwf
    (OuterPath.mk 0 outerSquare.points [⟨1, holeEmit holeLarge.points⟩])
    (by with_unfolding_all decide)

end HomeDecor
